import Mathlib

/-!
# Verification of the compendium priority resolution and name matching core

A shallow embedding of the pure decision core of the `npc-token-replacer`
module: `CompendiumManager.getCompendiumPriority`,
`NameMatcher.normalizeName`, `NameMatcher.selectBestMatch` and
`NameMatcher.findMatch` (three-stage cascade: exact match, variant match
with prefix/suffix stripping, partial word match).

Modelling conventions:
* JavaScript strings are modelled as Lean `String` / `List Char`;
  `String.prototype.toLowerCase` as the per-character ASCII lowering
  `jsToLower` (the only case mapping relevant to the data involved);
  the regex classes `\s` and `\w` as `isSpaceChar` / `isWordChar`
  (space, tab, newline, carriage return, vertical tab, form feed;
  ASCII letters, digits and underscore).
* `null`/`undefined` values flowing into `normalizeName` and
  `metadata.packageName` are modelled with `Option String`; the source's
  falsy checks (`!name`, `|| ""`) become the corresponding `Option`/empty
  tests.
* The membership test `packageName in COMPENDIUM_PRIORITIES` uses the
  JavaScript `in` operator, which also finds the properties a plain
  object literal inherits from `Object.prototype` (`"constructor"`,
  `"toString"`, …).  Reading such a key yields the inherited function
  or object, modelled opaquely as `JSValue.inherited`; priorities are
  therefore `JSValue`s, numeric only away from those keys.
* `Array.prototype.sort` is stable (ECMAScript 2019) and its comparator
  result passes through `SortCompare`, which turns `NaN` — what the
  subtraction comparator produces when a priority is non-numeric —
  into `+0`, a tie.  On candidate lists whose priorities are all
  numeric the comparator is a consistent comparison function and the
  unique stable output is modelled by a stable insertion sort
  (descending output and per-priority order preservation are proved as
  lemmas).  For inconsistent comparators ECMAScript leaves the order
  implementation-defined; claims rely on the model only where the
  standard defines the result (all-numeric lists, and two-element
  lists, which involve a single spec-defined comparison).
* `Array.prototype.filter` allocates a fresh array, so in the
  state-passing variant `findMatchSt` (used for the read-only-index
  claim) the caller's index is threaded through unchanged while the
  in-place `sort` acts on the fresh filtered arrays only.
* `Logger` calls are pure console output and are omitted.
-/

/-- The regex class `\s` restricted to the ASCII range (space, tab,
line feed, vertical tab, form feed, carriage return); this is also the
set of characters `String.prototype.trim` removes. -/
def isSpaceChar (c : Char) : Bool :=
  c.toNat = 32 || c.toNat = 9 || c.toNat = 10 || c.toNat = 13 || c.toNat = 11 || c.toNat = 12

/-- The regex class `\w`: ASCII letters, digits and underscore. -/
def isWordChar (c : Char) : Bool :=
  (97 ≤ c.toNat && c.toNat ≤ 122) || (65 ≤ c.toNat && c.toNat ≤ 90) ||
  (48 ≤ c.toNat && c.toNat ≤ 57) || c.toNat = 95

/-- `String.prototype.toLowerCase`, per character (basic-latin case map,
which is all the classifier data exercises). -/
def jsToLower (c : Char) : Char :=
  if 65 ≤ c.toNat ∧ c.toNat ≤ 90 then Char.ofNat (c.toNat + 32) else c

/-- `String.prototype.trim`: remove leading and trailing whitespace. -/
def trimChars (l : List Char) : List Char :=
  ((l.dropWhile isSpaceChar).reverse.dropWhile isSpaceChar).reverse

/-- Helper for `collapseWs`: `inRun` records whether the previous
character belonged to a whitespace run (whose single replacement space
has already been emitted). -/
def collapseWsAux (inRun : Bool) : List Char → List Char
  | [] => []
  | c :: rest =>
    if isSpaceChar c then
      if inRun then collapseWsAux true rest
      else ' ' :: collapseWsAux true rest
    else c :: collapseWsAux false rest

/-- `.replace(/\s+/g, " ")`: each maximal run of whitespace becomes one
space. -/
def collapseWs (l : List Char) : List Char :=
  collapseWsAux false l

/-- `String.prototype.split(" ")`: split at every single space,
keeping empty fragments (`"".split(" ")` is `[""]`). -/
def splitSpace : List Char → List (List Char)
  | [] => [[]]
  | c :: rest =>
    if c = ' ' then [] :: splitSpace rest
    else
      match splitSpace rest with
      | [] => [[c]]
      | w :: ws => (c :: w) :: ws

/-- A compendium pack as the core reads it: `pack.metadata.packageName`
(possibly undefined) and `pack.metadata.label`. -/
structure SourceDescriptor where
  packageName : Option String
  label : String
deriving DecidableEq

/-- One creature record of the combined index: `entry.name` (possibly
null/undefined) plus an opaque identifier standing for the entry's `_id`. -/
structure IndexEntry where
  name : Option String
  id : Nat
deriving DecidableEq

/-- One element of the combined index: `{ entry, pack }`. -/
structure CandidateMatch where
  entry : IndexEntry
  pack : SourceDescriptor
deriving DecidableEq

/-- `CompendiumManager.COMPENDIUM_PRIORITIES`: the static classification
table, an object with one numeric value per package name. -/
def COMPENDIUM_PRIORITIES : List (String × Nat) :=
  [("dnd5e", 1),
   ("dnd-tashas-cauldron", 1),
   ("dnd-monster-manual", 2),
   ("dnd-players-handbook", 2),
   ("dnd-dungeon-masters-guide", 2),
   ("dnd-forge-artificer", 3),
   ("dnd-phandelver-below", 4),
   ("dnd-tomb-annihilation", 4),
   ("dnd-adventures-faerun", 4),
   ("dnd-heroes-faerun", 4),
   ("dnd-heroes-borderlands", 4)]

/-- `String.prototype.startsWith`. -/
def jsStartsWith (s pre : String) : Bool :=
  pre.data.isPrefixOf s.data

/-- A value read off the priorities object by
`COMPENDIUM_PRIORITIES[packageName]`: one of the object's own numeric
entries, or — when the `in` test succeeded through the prototype
chain — the member `Object.prototype` provides under that key (a
function, or an object for `"__proto__"`), kept opaque here as
`inherited` tagged with the key.  `ToNumber` of any of those inherited
values is `NaN`, which is all the sort comparator can observe. -/
inductive JSValue where
  | num : Nat → JSValue
  | inherited : String → JSValue
deriving DecidableEq

/-- The property names every plain object literal inherits from
`Object.prototype` (including the Annex B accessors, present in every
web engine); `packageName in COMPENDIUM_PRIORITIES` is `true` for each
of these even though the table has no such own key. -/
def OBJECT_PROTOTYPE_KEYS : List String :=
  ["constructor", "hasOwnProperty", "isPrototypeOf", "propertyIsEnumerable",
   "toLocaleString", "toString", "valueOf", "__proto__",
   "__defineGetter__", "__defineSetter__", "__lookupGetter__", "__lookupSetter__"]

/-- `CompendiumManager.getCompendiumPriority`.  The source tests
`packageName in CompendiumManager.COMPENDIUM_PRIORITIES`, and the `in`
operator walks the prototype chain: it succeeds on the eleven own keys
*and* on the `Object.prototype` property names.  On an own key the
subsequent read yields the table's number; on an inherited key it
yields the inherited (non-numeric) member.  The two key sets are
disjoint, so testing own keys first is equivalent to the source's
single `in` test.  Otherwise: 4 for `dnd-` packages, 1 for everything
else.  (The previous revision of this function used
`COMPENDIUM_PRIORITIES.hasOwnProperty(packageName)`, which never hits
the inherited branch.) -/
def getCompendiumPriority (pack : SourceDescriptor) : JSValue :=
  let packageName := pack.packageName.getD ""
  match COMPENDIUM_PRIORITIES.lookup packageName with
  | some p => JSValue.num p
  | none =>
    if OBJECT_PROTOTYPE_KEYS.contains packageName then JSValue.inherited packageName
    else if jsStartsWith packageName "dnd-" then JSValue.num 4
    else JSValue.num 1

/-- The normalization pipeline of `NameMatcher.normalizeName` on
character lists: lower-case, trim, remove everything that is neither a
word character nor whitespace, collapse whitespace runs. -/
def normChars (l : List Char) : List Char :=
  collapseWs ((trimChars (l.map jsToLower)).filter (fun c => isWordChar c || isSpaceChar c))

/-- `NameMatcher.normalizeName`; a falsy argument (null, undefined or
the empty string) yields `""`. -/
def normalizeName (name : Option String) : String :=
  match name with
  | none => ""
  | some s => if s = "" then "" else ⟨normChars s.data⟩

-- sanity checks of the normalization model against the source's doc examples
example : normalizeName (some "Goblin Warrior") = "goblin warrior" := by decide
example : normalizeName (some "  Dire Wolf  ") = "dire wolf" := by decide
example : normalizeName (some "Mind Flayer's Minion") = "mind flayers minion" := by decide

/-- `NameMatcher.MIN_PARTIAL_LENGTH`. -/
def MIN_PARTIAL_LENGTH : Nat := 4

/-- The alternation of `NameMatcher.PREFIX_PATTERN`:
`^(young|adult|ancient|elder|greater|lesser)\s+`. -/
def PREFIX_WORDS : List (List Char) :=
  ["young".data, "adult".data, "ancient".data, "elder".data, "greater".data, "lesser".data]

/-- The alternation of `NameMatcher.SUFFIX_PATTERN`:
`\s+(warrior|guard|scout|champion|leader|chief|captain|shaman|berserker)$`. -/
def SUFFIX_WORDS : List (List Char) :=
  ["warrior".data, "guard".data, "scout".data, "champion".data, "leader".data,
   "chief".data, "captain".data, "shaman".data, "berserker".data]

/-- Match the literal word `w` (given lower-case) at the start of `l`,
case-insensitively (the `/i` flag); `some rest` is what follows the word. -/
def matchWordCI : List Char → List Char → Option (List Char)
  | [], rest => some rest
  | _ :: _, [] => none
  | p :: ps, c :: cs => if jsToLower c = p then matchWordCI ps cs else none

/-- After a matched alternation word, the regex still requires at least
one whitespace character, and `\s+` greedily consumes the maximal run;
`some` returns the remainder with that run removed. -/
def chopSpaceRun (rest : List Char) : Option (List Char) :=
  match rest with
  | [] => none
  | c :: _ => if isSpaceChar c then some (rest.dropWhile isSpaceChar) else none

/-- `name.replace(NameMatcher.PREFIX_PATTERN, "")`: the pattern is
anchored at the start, so the only possible match is a leading
size-modifier word followed by whitespace; replacing it with `""`
leaves the remainder after the whitespace run.  (The alternation words
are pairwise non-prefixes of one another, so at most one can match.) -/
def replacePrefixPattern (l : List Char) : List Char :=
  match PREFIX_WORDS.findSome? (fun w =>
      match matchWordCI w l with
      | some rest => chopSpaceRun rest
      | none => none) with
  | some res => res
  | none => l

/-- `name.replace(NameMatcher.SUFFIX_PATTERN, "")`: the pattern is
anchored at the end by `$`, and the leftmost match of `\s+(…)​$` starts
at the beginning of the maximal whitespace run preceding the final
word, so replacing with `""` removes that whole run and the word.
Computed on the reversed list.  (The alternation words are pairwise
non-suffixes of one another, so at most one can match.) -/
def replaceSuffixPattern (l : List Char) : List Char :=
  match SUFFIX_WORDS.findSome? (fun w =>
      match matchWordCI w.reverse l.reverse with
      | some rest => chopSpaceRun rest
      | none => none) with
  | some res => res.reverse
  | none => l

/-- First element of the `variantTransforms` array:
`name => name.replace(NameMatcher.PREFIX_PATTERN, "")`. -/
def variantA (name : String) : String :=
  ⟨replacePrefixPattern name.data⟩

/-- Second element of the `variantTransforms` array:
`name => name.replace(NameMatcher.SUFFIX_PATTERN, "")`. -/
def variantB (name : String) : String :=
  ⟨replaceSuffixPattern name.data⟩

/-- Third element of the `variantTransforms` array: both replacements
in sequence, prefix first. -/
def variantC (name : String) : String :=
  ⟨replaceSuffixPattern (replacePrefixPattern name.data)⟩

/-- The `variantTransforms` array of `findMatch` Stage 2: strip the
prefix pattern, strip the suffix pattern, strip both in sequence. -/
def variantTransforms : List (String → String) :=
  [variantA, variantB, variantC]

-- sanity checks of the transform model
example : (⟨replacePrefixPattern "young red dragon".data⟩ : String) = "red dragon" := by decide
example : (⟨replaceSuffixPattern "goblin warrior".data⟩ : String) = "goblin" := by decide
example : (⟨replaceSuffixPattern "orc war chief".data⟩ : String) = "orc war" := by decide
example : (⟨replacePrefixPattern "goblin".data⟩ : String) = "goblin" := by decide
example : (⟨replaceSuffixPattern "warrior".data⟩ : String) = "warrior" := by decide

/-- `SortCompare(a, b) ≤ 0` for the comparator of `selectBestMatch`,
`(a, b) => getCompendiumPriority(b.pack) - getCompendiumPriority(a.pack)`:
`a` may keep its place before `b` iff the comparator is `≤ 0`.  When
either priority is a non-numeric inherited value the subtraction is
`NaN`, which `SortCompare` maps to `+0` — `a` and `b` compare equal. -/
def sortKeepsOrder (a b : CandidateMatch) : Bool :=
  match getCompendiumPriority a.pack, getCompendiumPriority b.pack with
  | JSValue.num pa, JSValue.num pb => decide (pb ≤ pa)
  | _, _ => true

/-- Stable insertion into a descending run: `x` (originally before
every element of the run) stays in front of the first element it
compares less-or-equal against, hence in front of every element that
ties with it. -/
def insertDesc (x : CandidateMatch) : List CandidateMatch → List CandidateMatch
  | [] => [x]
  | y :: ys =>
    if sortKeepsOrder x y then x :: y :: ys
    else y :: insertDesc x ys

/-- The in-place stable `matches.sort(...)` of `selectBestMatch`,
descending by priority.  `Array.prototype.sort` is stable (ECMAScript
2019); when every candidate's priority is numeric the comparator is a
consistent comparison function, a stable sort by a total preorder has
exactly one possible output, and the stable insertion sort below is
that output — the lemmas `pairwise_sortByPriorityDesc` (the output is
descending) and `filter_sortByPriorityDesc` (elements of each fixed
priority keep their relative order) verify the two characterizing
properties on such lists.  When a non-numeric priority makes the
comparator inconsistent ECMAScript leaves the order
implementation-defined, and the model is relied on only for
two-element lists, whose single comparison (`NaN` ↦ tie ↦ keep order)
is spec-defined. -/
def sortByPriorityDesc (ms : List CandidateMatch) : List CandidateMatch :=
  ms.foldr insertDesc []

/-- `NameMatcher.selectBestMatch`: `null` for an empty list, the sole
element of a singleton, otherwise the first element after the stable
descending sort. -/
def selectBestMatch (ms : List CandidateMatch) : Option CandidateMatch :=
  match ms with
  | [] => none
  | [m] => some m
  | _ => (sortByPriorityDesc ms).head?

/-- The filter predicate of `findMatch` Stage 1 and Stage 2: the
entry's normalized name equals the searched string. -/
def nameEqFilter (v : String) (item : CandidateMatch) : Bool :=
  normalizeName item.entry.name == v

/-- The filter predicate of `findMatch` Stage 3: the normalized entry
name must reach `MIN_PARTIAL_LENGTH`, and one of the two word lists
(split on single spaces) must contain a word of the other of length at
least `MIN_PARTIAL_LENGTH`. -/
def stage3Pred (normalizedSearch : String) (item : CandidateMatch) : Bool :=
  let entryName := normalizeName item.entry.name
  if entryName.length < MIN_PARTIAL_LENGTH then false
  else
    let searchWords := splitSpace normalizedSearch.data
    let entryWords := splitSpace entryName.data
    searchWords.any (fun sw => entryWords.contains sw && MIN_PARTIAL_LENGTH ≤ sw.length) ||
    entryWords.any (fun ew => searchWords.contains ew && MIN_PARTIAL_LENGTH ≤ ew.length)

/-- The `for (const transform of variantTransforms)` loop of `findMatch`
Stage 2: a variant is looked up only when it differs from the input and
is non-empty; the first transform with at least one match returns
through `selectBestMatch`, otherwise the loop falls through (`none`). -/
def stage2Run (normalizedSearch : String) (index : List CandidateMatch) :
    List (String → String) → Option CandidateMatch
  | [] => none
  | t :: ts =>
    let variant := t normalizedSearch
    if variant ≠ normalizedSearch ∧ 0 < variant.length then
      let ms := index.filter (nameEqFilter variant)
      if 0 < ms.length then selectBestMatch ms
      else stage2Run normalizedSearch index ts
    else stage2Run normalizedSearch index ts

/-- `NameMatcher.findMatch`: normalize, short-circuit on an empty
result, then Stage 1 (exact), Stage 2 (variants), Stage 3 (partial,
gated by `MIN_PARTIAL_LENGTH`). -/
def findMatch (creatureName : Option String) (index : List CandidateMatch) :
    Option CandidateMatch :=
  let normalizedSearch := normalizeName creatureName
  if normalizedSearch = "" then none
  else
    let matches1 := index.filter (nameEqFilter normalizedSearch)
    if 0 < matches1.length then selectBestMatch matches1
    else
      match stage2Run normalizedSearch index variantTransforms with
      | some m => some m
      | none =>
        if MIN_PARTIAL_LENGTH ≤ normalizedSearch.length then
          let matches3 := index.filter (stage3Pred normalizedSearch)
          if 0 < matches3.length then selectBestMatch matches3 else none
        else none

-- sanity: the spec's example scenarios
def srdPack : SourceDescriptor := ⟨some "dnd5e", "SRD"⟩
def mmPack : SourceDescriptor := ⟨some "dnd-monster-manual", "Monster Manual"⟩
def advPack : SourceDescriptor := ⟨some "dnd-phandelver-below", "Phandelver"⟩

example : findMatch (some "Goblin") [⟨⟨some "Goblin", 0⟩, mmPack⟩] =
    some ⟨⟨some "Goblin", 0⟩, mmPack⟩ := by decide
example : findMatch (some "Goblin Warrior")
    [⟨⟨some "Goblin", 0⟩, srdPack⟩, ⟨⟨some "Goblin", 1⟩, advPack⟩] =
    some ⟨⟨some "Goblin", 1⟩, advPack⟩ := by decide
example : findMatch (some "Young Red Dragon") [⟨⟨some "Red Dragon", 0⟩, mmPack⟩] =
    some ⟨⟨some "Red Dragon", 0⟩, mmPack⟩ := by decide
example : findMatch (some "Rat") [⟨⟨some "Giant Pirate Captain", 0⟩, mmPack⟩] = none := by
  decide
example : findMatch (some "   ") [⟨⟨some "Goblin", 0⟩, mmPack⟩] = none := by decide
example : findMatch none [⟨⟨some "Goblin", 0⟩, mmPack⟩] = none := by decide

/-! ## State-passing variant

`findMatch` receives the caller's index array by reference.  The only
mutating array operation on the call path is `matches.sort(...)` inside
`selectBestMatch`, and every `matches` array is the result of
`index.filter(...)`, which allocates a fresh array.  The variant below
makes this explicit: each `selectBestMatchSt` returns the new contents
of the (fresh, local) array it sorted in place, and the caller's
`index` is threaded through to the final state. -/

/-- `selectBestMatch` together with the final contents of the array it
received (mutated in place by `sort` on the two-or-more branch). -/
def selectBestMatchSt (ms : List CandidateMatch) :
    Option CandidateMatch × List CandidateMatch :=
  match ms with
  | [] => (none, ms)
  | [m] => (some m, ms)
  | _ =>
    let sorted := sortByPriorityDesc ms
    (sorted.head?, sorted)

/-- Stage 2 loop, state-passing: the local filtered arrays are handed
to `selectBestMatchSt` and dropped; `index` is returned unchanged. -/
def stage2RunSt (normalizedSearch : String) (index : List CandidateMatch) :
    List (String → String) → Option CandidateMatch × List CandidateMatch
  | [] => (none, index)
  | t :: ts =>
    let variant := t normalizedSearch
    if variant ≠ normalizedSearch ∧ 0 < variant.length then
      let ms := index.filter (nameEqFilter variant)
      if 0 < ms.length then ((selectBestMatchSt ms).1, index)
      else stage2RunSt normalizedSearch index ts
    else stage2RunSt normalizedSearch index ts

/-- `findMatch`, state-passing: the result together with the caller's
index as it stands after the call. -/
def findMatchSt (creatureName : Option String) (index : List CandidateMatch) :
    Option CandidateMatch × List CandidateMatch :=
  let normalizedSearch := normalizeName creatureName
  if normalizedSearch = "" then (none, index)
  else
    let matches1 := index.filter (nameEqFilter normalizedSearch)
    if 0 < matches1.length then ((selectBestMatchSt matches1).1, index)
    else
      match (stage2RunSt normalizedSearch index variantTransforms).1 with
      | some m => (some m, index)
      | none =>
        if MIN_PARTIAL_LENGTH ≤ normalizedSearch.length then
          let matches3 := index.filter (stage3Pred normalizedSearch)
          if 0 < matches3.length then ((selectBestMatchSt matches3).1, index)
          else (none, index)
        else (none, index)

/-! ## Properties of the stable descending sort -/

/-- `true` exactly on numeric priority values; the comparator behaves
as a total preorder only between candidates with numeric priorities. -/
def isNumV : JSValue → Bool
  | JSValue.num _ => true
  | JSValue.inherited _ => false

/-- The numeric priority of a candidate; a non-numeric inherited value
(on which no claim places an ordering) reads as 0. -/
def prio (m : CandidateMatch) : Nat :=
  match getCompendiumPriority m.pack with
  | JSValue.num p => p
  | JSValue.inherited _ => 0

/-- Every candidate of the list has a numeric priority: on such lists
the source comparator is a consistent comparison function and
ECMAScript fully determines the sort output. -/
abbrev numericPriorities (l : List CandidateMatch) : Prop :=
  ∀ m ∈ l, isNumV (getCompendiumPriority m.pack) = true

theorem sortKeepsOrder_of_num {x y : CandidateMatch}
    (hx : isNumV (getCompendiumPriority x.pack) = true)
    (hy : isNumV (getCompendiumPriority y.pack) = true) :
    sortKeepsOrder x y = decide (prio y ≤ prio x) := by
  rcases hgx : getCompendiumPriority x.pack with px | sx
  · rcases hgy : getCompendiumPriority y.pack with py | sy
    · simp [sortKeepsOrder, prio, hgx, hgy]
    · rw [hgy] at hy
      simp [isNumV] at hy
  · rw [hgx] at hx
    simp [isNumV] at hx

theorem length_insertDesc (x : CandidateMatch) (s : List CandidateMatch) :
    (insertDesc x s).length = s.length + 1 := by
  induction s with
  | nil => rfl
  | cons y ys ih =>
    simp only [insertDesc]
    split
    · simp
    · simp [ih]

theorem length_sortByPriorityDesc (l : List CandidateMatch) :
    (sortByPriorityDesc l).length = l.length := by
  induction l with
  | nil => rfl
  | cons x xs ih =>
    simpa [sortByPriorityDesc, List.foldr_cons, length_insertDesc]
      using congrArg Nat.succ ih

theorem mem_insertDesc {z x : CandidateMatch} {s : List CandidateMatch} :
    z ∈ insertDesc x s ↔ z = x ∨ z ∈ s := by
  induction s with
  | nil => simp [insertDesc]
  | cons y ys ih =>
    simp only [insertDesc]
    split
    · simp
    · simp only [List.mem_cons, ih]
      tauto

theorem mem_sortByPriorityDesc {z : CandidateMatch} {l : List CandidateMatch} :
    z ∈ sortByPriorityDesc l ↔ z ∈ l := by
  induction l with
  | nil => simp [sortByPriorityDesc]
  | cons x xs ih =>
    show z ∈ insertDesc x (sortByPriorityDesc xs) ↔ _
    rw [mem_insertDesc, ih, List.mem_cons]

theorem pairwise_insertDesc (x : CandidateMatch) (s : List CandidateMatch)
    (hx : isNumV (getCompendiumPriority x.pack) = true)
    (hsn : numericPriorities s)
    (hs : s.Pairwise (fun a b => prio b ≤ prio a)) :
    (insertDesc x s).Pairwise (fun a b => prio b ≤ prio a) := by
  induction s with
  | nil => simp [insertDesc]
  | cons y ys ih =>
    have hy := hsn y (List.mem_cons_self _ _)
    have hys : numericPriorities ys := fun z hz => hsn z (List.mem_cons_of_mem _ hz)
    rw [List.pairwise_cons] at hs
    simp only [insertDesc, sortKeepsOrder_of_num hx hy, decide_eq_true_eq]
    split
    · rename_i hyx
      refine List.pairwise_cons.mpr ⟨?_, List.pairwise_cons.mpr hs⟩
      intro z hz
      rcases List.mem_cons.mp hz with rfl | hz
      · exact hyx
      · exact Nat.le_trans (hs.1 z hz) hyx
    · rename_i hyx
      refine List.pairwise_cons.mpr ⟨?_, ih hys hs.2⟩
      intro z hz
      rcases mem_insertDesc.mp hz with rfl | hz
      · exact Nat.le_of_lt (Nat.lt_of_not_le hyx)
      · exact hs.1 z hz

/-- On all-numeric candidate lists the sort output is descending by
priority: first characterizing property of the source's stable sort. -/
theorem pairwise_sortByPriorityDesc (l : List CandidateMatch)
    (hn : numericPriorities l) :
    (sortByPriorityDesc l).Pairwise (fun a b => prio b ≤ prio a) := by
  induction l with
  | nil => exact List.Pairwise.nil
  | cons x xs ih =>
    have hxs : numericPriorities xs := fun z hz => hn z (List.mem_cons_of_mem _ hz)
    exact pairwise_insertDesc x _ (hn x (List.mem_cons_self _ _))
      (fun z hz => hxs z (mem_sortByPriorityDesc.mp hz)) (ih hxs)

theorem filter_insertDesc (x : CandidateMatch) (s : List CandidateMatch) (k : Nat)
    (hx : isNumV (getCompendiumPriority x.pack) = true)
    (hsn : numericPriorities s) :
    (insertDesc x s).filter (fun y => prio y == k) =
      if prio x = k then x :: s.filter (fun y => prio y == k)
      else s.filter (fun y => prio y == k) := by
  induction s with
  | nil => by_cases hxk : prio x = k <;> simp [insertDesc, List.filter_cons, hxk]
  | cons y ys ih =>
    have hy := hsn y (List.mem_cons_self _ _)
    have hys : numericPriorities ys := fun z hz => hsn z (List.mem_cons_of_mem _ hz)
    simp only [insertDesc, sortKeepsOrder_of_num hx hy, decide_eq_true_eq]
    split
    · rename_i hyx
      by_cases hxk : prio x = k <;> simp [List.filter_cons, hxk]
    · rename_i hyx
      by_cases hxk : prio x = k
      · have hyk : ¬ prio y = k := by omega
        simp [List.filter_cons, ih hys, hxk, hyk]
      · by_cases hyk : prio y = k <;> simp [List.filter_cons, ih hys, hxk, hyk]

/-- On all-numeric candidate lists, the elements of any fixed priority
keep their original relative order: second characterizing property
(stability) of the source's stable sort. -/
theorem filter_sortByPriorityDesc (l : List CandidateMatch) (k : Nat)
    (hn : numericPriorities l) :
    (sortByPriorityDesc l).filter (fun y => prio y == k) =
      l.filter (fun y => prio y == k) := by
  induction l with
  | nil => rfl
  | cons x xs ih =>
    have hxs : numericPriorities xs := fun z hz => hn z (List.mem_cons_of_mem _ hz)
    show (insertDesc x (sortByPriorityDesc xs)).filter _ = _
    rw [filter_insertDesc _ _ _ (hn x (List.mem_cons_self _ _))
      (fun z hz => hxs z (mem_sortByPriorityDesc.mp hz))]
    by_cases hxk : prio x = k <;> simp [List.filter_cons, hxk, ih hxs]

/-- The first element of maximal priority, in list order. -/
def firstMax : List CandidateMatch → Option CandidateMatch
  | [] => none
  | x :: xs =>
    match firstMax xs with
    | none => some x
    | some y => if prio x < prio y then some y else some x

theorem sortByPriorityDesc_eq_nil {l : List CandidateMatch}
    (h : sortByPriorityDesc l = []) : l = [] := by
  have := length_sortByPriorityDesc l
  rw [h] at this
  exact List.length_eq_zero.mp this.symm

theorem head?_sortByPriorityDesc (l : List CandidateMatch)
    (hn : numericPriorities l) :
    (sortByPriorityDesc l).head? = firstMax l := by
  induction l with
  | nil => rfl
  | cons x xs ih =>
    have hx := hn x (List.mem_cons_self _ _)
    have hxs : numericPriorities xs := fun z hz => hn z (List.mem_cons_of_mem _ hz)
    show (insertDesc x (sortByPriorityDesc xs)).head? = _
    rcases hs : sortByPriorityDesc xs with _ | ⟨y, ys⟩
    · rw [sortByPriorityDesc_eq_nil hs]
      simp [insertDesc, firstMax]
    · have hy : isNumV (getCompendiumPriority y.pack) = true :=
        hxs y (mem_sortByPriorityDesc.mp (by rw [hs]; exact List.mem_cons_self y ys))
      have ih' := ih hxs
      rw [hs] at ih'
      simp only [List.head?] at ih'
      simp only [insertDesc, sortKeepsOrder_of_num hx hy, decide_eq_true_eq,
        firstMax, ← ih']
      split
      · rename_i hyx
        rw [if_neg (by omega)]
        rfl
      · rename_i hyx
        rw [if_pos (by omega)]
        rfl

theorem firstMax_spec (l : List CandidateMatch) (h : l ≠ []) :
    ∃ (i : Nat) (hi : i < l.length),
      firstMax l = some (l.get ⟨i, hi⟩) ∧
      (∀ (j : Nat) (hj : j < l.length), prio (l.get ⟨j, hj⟩) ≤ prio (l.get ⟨i, hi⟩)) ∧
      (∀ (j : Nat) (hj : j < l.length), j < i → prio (l.get ⟨j, hj⟩) < prio (l.get ⟨i, hi⟩)) := by
  induction l with
  | nil => exact absurd rfl h
  | cons x xs ih =>
    rcases hxs : xs with _ | ⟨y, ys⟩
    · subst hxs
      refine ⟨0, by simp, rfl, ?_, ?_⟩
      · intro j hj
        simp only [List.length_cons, List.length_nil] at hj
        interval_cases j
        exact Nat.le_refl _
      · intro j hj hj0
        omega
    · rw [← hxs]
      have hxs' : xs ≠ [] := by simp [hxs]
      obtain ⟨i, hi, hfm, hmax, hfirst⟩ := ih hxs'
      by_cases hlt : prio x < prio (xs.get ⟨i, hi⟩)
      · refine ⟨i + 1, by simpa using Nat.succ_lt_succ hi, ?_, ?_, ?_⟩
        · simp only [firstMax, hfm, if_pos hlt]
          rfl
        · intro j hj
          match j with
          | 0 => exact Nat.le_of_lt hlt
          | j + 1 => exact hmax j (by simpa using Nat.lt_of_succ_lt_succ hj)
        · intro j hj hji
          match j with
          | 0 => exact hlt
          | j + 1 =>
            exact hfirst j (by simpa using Nat.lt_of_succ_lt_succ hj)
              (Nat.lt_of_succ_lt_succ hji)
      · refine ⟨0, by simp, ?_, ?_, ?_⟩
        · simp only [firstMax, hfm, if_neg hlt]
          rfl
        · intro j hj
          match j with
          | 0 => exact Nat.le_refl _
          | j + 1 =>
            exact Nat.le_trans (hmax j (by simpa using Nat.lt_of_succ_lt_succ hj))
              (Nat.le_of_not_lt hlt)
        · intro j hj hj0
          omega

/-- On all-numeric candidate lists `selectBestMatch` computes
`firstMax`: the singleton short-circuit agrees with the sorted path,
and the sorted path's head is the first element of maximal priority. -/
theorem selectBestMatch_eq_firstMax (l : List CandidateMatch)
    (hn : numericPriorities l) :
    selectBestMatch l = firstMax l := by
  match l with
  | [] => rfl
  | [m] => rfl
  | a :: b :: t =>
    show (sortByPriorityDesc (a :: b :: t)).head? = _
    exact head?_sortByPriorityDesc _ hn

theorem selectBestMatch_spec (l : List CandidateMatch) (h : l ≠ [])
    (hn : numericPriorities l) :
    ∃ (i : Nat) (hi : i < l.length),
      selectBestMatch l = some (l.get ⟨i, hi⟩) ∧
      (∀ (j : Nat) (hj : j < l.length), prio (l.get ⟨j, hj⟩) ≤ prio (l.get ⟨i, hi⟩)) ∧
      (∀ (j : Nat) (hj : j < l.length), j < i → prio (l.get ⟨j, hj⟩) < prio (l.get ⟨i, hi⟩)) := by
  rw [selectBestMatch_eq_firstMax l hn]
  exact firstMax_spec l h

/-- Whatever the priorities (numeric or inherited), the tie resolution
of a non-empty list returns one of its elements. -/
theorem selectBestMatch_mem {l : List CandidateMatch} (h : l ≠ []) :
    ∃ m, selectBestMatch l = some m ∧ m ∈ l := by
  match l with
  | [] => exact absurd rfl h
  | [m] => exact ⟨m, rfl, List.mem_cons_self _ _⟩
  | a :: b :: t =>
    rcases hs : sortByPriorityDesc (a :: b :: t) with _ | ⟨m, ms⟩
    · exact absurd (sortByPriorityDesc_eq_nil hs) (by simp)
    · refine ⟨m, ?_, ?_⟩
      · show (sortByPriorityDesc (a :: b :: t)).head? = some m
        rw [hs]
        rfl
      · exact mem_sortByPriorityDesc.mp (by rw [hs]; exact List.mem_cons_self _ _)

/-! ## Unfolding the stages of `findMatch` -/

theorem findMatch_of_empty {raw : Option String} {idx : List CandidateMatch}
    (h : normalizeName raw = "") : findMatch raw idx = none := by
  simp [findMatch, h]

theorem findMatch_of_stage1 {raw : Option String} {idx : List CandidateMatch}
    (h0 : normalizeName raw ≠ "")
    (h1 : 0 < (idx.filter (nameEqFilter (normalizeName raw))).length) :
    findMatch raw idx = selectBestMatch (idx.filter (nameEqFilter (normalizeName raw))) := by
  simp only [findMatch]
  rw [if_neg h0, if_pos h1]

theorem findMatch_of_stage2 {raw : Option String} {idx : List CandidateMatch}
    {m : CandidateMatch} (h0 : normalizeName raw ≠ "")
    (h1 : ¬ 0 < (idx.filter (nameEqFilter (normalizeName raw))).length)
    (h2 : stage2Run (normalizeName raw) idx variantTransforms = some m) :
    findMatch raw idx = some m := by
  simp only [findMatch]
  rw [if_neg h0, if_neg h1, h2]

theorem findMatch_of_stage3 {raw : Option String} {idx : List CandidateMatch}
    (h0 : normalizeName raw ≠ "")
    (h1 : ¬ 0 < (idx.filter (nameEqFilter (normalizeName raw))).length)
    (h2 : stage2Run (normalizeName raw) idx variantTransforms = none) :
    findMatch raw idx =
      if MIN_PARTIAL_LENGTH ≤ (normalizeName raw).length then
        if 0 < (idx.filter (stage3Pred (normalizeName raw))).length then
          selectBestMatch (idx.filter (stage3Pred (normalizeName raw)))
        else none
      else none := by
  simp only [findMatch]
  rw [if_neg h0, if_neg h1, h2]

theorem stage2Run_cons_hit {s : String} {idx : List CandidateMatch}
    {t : String → String} {ts : List (String → String)}
    (h1 : t s ≠ s) (h2 : 0 < (t s).length)
    (h3 : 0 < (idx.filter (nameEqFilter (t s))).length) :
    stage2Run s idx (t :: ts) = selectBestMatch (idx.filter (nameEqFilter (t s))) := by
  simp only [stage2Run]
  rw [if_pos ⟨h1, h2⟩, if_pos h3]

theorem stage2Run_cons_skip {s : String} {idx : List CandidateMatch}
    {t : String → String} {ts : List (String → String)}
    (h : ¬ (t s ≠ s ∧ 0 < (t s).length)) :
    stage2Run s idx (t :: ts) = stage2Run s idx ts := by
  simp only [stage2Run]
  rw [if_neg h]

theorem stage2Run_cons_miss {s : String} {idx : List CandidateMatch}
    {t : String → String} {ts : List (String → String)}
    (h3 : ¬ 0 < (idx.filter (nameEqFilter (t s))).length) :
    stage2Run s idx (t :: ts) = stage2Run s idx ts := by
  by_cases hc : t s ≠ s ∧ 0 < (t s).length
  · simp only [stage2Run]
    rw [if_pos hc, if_neg h3]
  · exact stage2Run_cons_skip hc

theorem stage2Run_some {s : String} {idx : List CandidateMatch}
    {ts : List (String → String)} {m : CandidateMatch}
    (h : stage2Run s idx ts = some m) :
    ∃ t ∈ ts, t s ≠ s ∧ 0 < (t s).length ∧ m ∈ idx.filter (nameEqFilter (t s)) := by
  induction ts with
  | nil => simp [stage2Run] at h
  | cons t ts ih =>
    by_cases hc : t s ≠ s ∧ 0 < (t s).length
    · by_cases h3 : 0 < (idx.filter (nameEqFilter (t s))).length
      · rw [stage2Run_cons_hit hc.1 hc.2 h3] at h
        obtain ⟨m', hm', hmem⟩ := selectBestMatch_mem (List.length_pos.mp h3)
        have : m' = m := Option.some.inj (hm'.symm.trans h)
        exact ⟨t, List.mem_cons_self _ _, hc.1, hc.2, this ▸ hmem⟩
      · rw [stage2Run_cons_miss h3] at h
        obtain ⟨t', ht', hp⟩ := ih h
        exact ⟨t', List.mem_cons_of_mem _ ht', hp⟩
    · rw [stage2Run_cons_skip hc] at h
      obtain ⟨t', ht', hp⟩ := ih h
      exact ⟨t', List.mem_cons_of_mem _ ht', hp⟩

/-! ## Relating the state-passing variant to `findMatch` -/

theorem selectBestMatchSt_fst (ms : List CandidateMatch) :
    (selectBestMatchSt ms).1 = selectBestMatch ms := by
  match ms with
  | [] => rfl
  | [m] => rfl
  | a :: b :: t => rfl

theorem stage2RunSt_fst (s : String) (idx : List CandidateMatch)
    (ts : List (String → String)) :
    (stage2RunSt s idx ts).1 = stage2Run s idx ts := by
  induction ts with
  | nil => rfl
  | cons t ts ih =>
    simp only [stage2RunSt, stage2Run]
    split
    · split
      · exact selectBestMatchSt_fst _
      · exact ih
    · exact ih

theorem stage2RunSt_snd (s : String) (idx : List CandidateMatch)
    (ts : List (String → String)) :
    (stage2RunSt s idx ts).2 = idx := by
  induction ts with
  | nil => rfl
  | cons t ts ih =>
    simp only [stage2RunSt]
    split
    · split
      · rfl
      · exact ih
    · exact ih

theorem findMatchSt_spec (raw : Option String) (idx : List CandidateMatch) :
    (findMatchSt raw idx).2 = idx ∧ (findMatchSt raw idx).1 = findMatch raw idx := by
  constructor
  · simp only [findMatchSt]
    split
    · rfl
    · split
      · rfl
      · split
        · rfl
        · split
          · split <;> rfl
          · rfl
  · simp only [findMatchSt, findMatch, selectBestMatchSt_fst, stage2RunSt_fst]
    split
    · rfl
    · split
      · rfl
      · split
        · rfl
        · split
          · split <;> rfl
          · rfl

/-! ## The claims -/

/-- **C1, counterexample.** The claim fails on the program: a candidate
whose `packageName` is `"constructor"` — an `Object.prototype` property
name — gets the inherited non-numeric priority value, the comparator
against the Monster Manual candidate (priority 2) yields `NaN`, which
`SortCompare` treats as a tie (`+0`), so the stable two-element sort
keeps the original order and tie resolution returns the first
candidate, whose `resolvePriority` is not a number at all — in
particular not maximal among the candidates.  (With two elements the
single `NaN` comparison is consistent, so this outcome is fully
determined by ECMAScript, not implementation-defined.) -/
theorem tie_resolution_violates_max_on_inherited_key :
    selectBestMatch
        [⟨⟨some "Goblin", 0⟩, ⟨some "constructor", "Evil Module"⟩⟩,
         ⟨⟨some "Goblin", 1⟩, mmPack⟩] =
      some ⟨⟨some "Goblin", 0⟩, ⟨some "constructor", "Evil Module"⟩⟩ ∧
    getCompendiumPriority (⟨some "constructor", "Evil Module"⟩ : SourceDescriptor) =
      JSValue.inherited "constructor" ∧
    isNumV (getCompendiumPriority
      (⟨some "constructor", "Evil Module"⟩ : SourceDescriptor)) = false ∧
    getCompendiumPriority mmPack = JSValue.num 2 := by
  refine ⟨?_, ?_, ?_, ?_⟩ <;> decide

/-- **C1, amended.** For every non-empty list of candidate matches in
which every candidate's `resolvePriority` is numeric (no `packageName`
is an inherited `Object.prototype` property name), the candidate
returned by tie resolution (shared by all three stages of `findMatch`)
has the maximal `resolvePriority` among the candidates, and when
several candidates share that maximal priority, the one returned is
the first of them in the original combined-index order.  (`prio` reads
the numeric priority value.) -/
theorem tie_resolution_first_of_max (l : List CandidateMatch) (h : l ≠ [])
    (hn : ∀ m ∈ l, isNumV (getCompendiumPriority m.pack) = true) :
    ∃ (i : Nat) (hi : i < l.length),
      selectBestMatch l = some (l.get ⟨i, hi⟩) ∧
      (∀ (j : Nat) (hj : j < l.length),
        prio (l.get ⟨j, hj⟩) ≤ prio (l.get ⟨i, hi⟩)) ∧
      (∀ (j : Nat) (hj : j < l.length), j < i →
        prio (l.get ⟨j, hj⟩) < prio (l.get ⟨i, hi⟩)) :=
  selectBestMatch_spec l h hn

/-- Witness for the amended **C1** at a concrete two-candidate tie
(equal normalized name, priorities 1 and 4): the spec's tie-break
scenario. -/
theorem tie_resolution_first_of_max_witness :
    ∃ (i : Nat)
      (hi : i < ([⟨⟨some "Goblin", 0⟩, srdPack⟩,
                  ⟨⟨some "Goblin", 1⟩, advPack⟩] : List CandidateMatch).length),
      selectBestMatch [⟨⟨some "Goblin", 0⟩, srdPack⟩, ⟨⟨some "Goblin", 1⟩, advPack⟩] =
        some (([⟨⟨some "Goblin", 0⟩, srdPack⟩,
                ⟨⟨some "Goblin", 1⟩, advPack⟩] : List CandidateMatch).get ⟨i, hi⟩) ∧
      (∀ (j : Nat)
        (hj : j < ([⟨⟨some "Goblin", 0⟩, srdPack⟩,
                    ⟨⟨some "Goblin", 1⟩, advPack⟩] : List CandidateMatch).length),
        prio (([⟨⟨some "Goblin", 0⟩, srdPack⟩,
                ⟨⟨some "Goblin", 1⟩, advPack⟩] : List CandidateMatch).get ⟨j, hj⟩) ≤
          prio (([⟨⟨some "Goblin", 0⟩, srdPack⟩,
                  ⟨⟨some "Goblin", 1⟩, advPack⟩] : List CandidateMatch).get ⟨i, hi⟩)) ∧
      (∀ (j : Nat)
        (hj : j < ([⟨⟨some "Goblin", 0⟩, srdPack⟩,
                    ⟨⟨some "Goblin", 1⟩, advPack⟩] : List CandidateMatch).length),
        j < i →
        prio (([⟨⟨some "Goblin", 0⟩, srdPack⟩,
                ⟨⟨some "Goblin", 1⟩, advPack⟩] : List CandidateMatch).get ⟨j, hj⟩) <
          prio (([⟨⟨some "Goblin", 0⟩, srdPack⟩,
                  ⟨⟨some "Goblin", 1⟩, advPack⟩] : List CandidateMatch).get ⟨i, hi⟩)) :=
  tie_resolution_first_of_max
    [⟨⟨some "Goblin", 0⟩, srdPack⟩, ⟨⟨some "Goblin", 1⟩, advPack⟩]
    (by decide) (by decide)

/-- **C2, code bug.** The claim matches the function's own JSDoc
(`@returns {number} Priority level (1=SRD/Fallback, 2=Core,
3=Expansions, 4=Adventures)`) and the previous revision of the same
function, which tested `COMPENDIUM_PRIORITIES.hasOwnProperty(packageName)`.
The current revision tests `packageName in COMPENDIUM_PRIORITIES`, and
the `in` operator also finds inherited `Object.prototype` properties:
for `packageName = "constructor"` or `"toString"` the function returns
the inherited function value instead of the integer 1 the claim (and
the JSDoc) require for names without the `dnd-` prefix.  Away from
those twelve inherited keys the function behaves exactly as claimed,
as the last three conjuncts illustrate. -/
theorem resolvePriority_inherited_key_not_numeric :
    getCompendiumPriority ⟨some "constructor", "Evil Module"⟩ =
      JSValue.inherited "constructor" ∧
    isNumV (getCompendiumPriority ⟨some "constructor", "Evil Module"⟩) = false ∧
    getCompendiumPriority ⟨some "toString", "Evil Module"⟩ =
      JSValue.inherited "toString" ∧
    jsStartsWith "constructor" "dnd-" = false ∧
    getCompendiumPriority srdPack = JSValue.num 1 ∧
    getCompendiumPriority ⟨some "dnd-future-adventure", "X"⟩ = JSValue.num 4 ∧
    getCompendiumPriority ⟨some "acme-monsters", "X"⟩ = JSValue.num 1 := by
  refine ⟨?_, ?_, ?_, ?_, ?_, ?_, ?_⟩ <;> decide

/-- **C9.** A call to `findMatch` leaves the caller-supplied combined
index unchanged: the final state of the index in the state-passing
model is the input index (the result itself agreeing with `findMatch`).
The only in-place array mutation on the call path, `matches.sort(...)`,
acts on fresh arrays produced by `index.filter(...)`. -/
theorem findMatch_index_unchanged (raw : Option String) (idx : List CandidateMatch) :
    (findMatchSt raw idx).2 = idx ∧ (findMatchSt raw idx).1 = findMatch raw idx :=
  findMatchSt_spec raw idx

/-- **C3, counterexample.** As stated the claim fails for an input whose
normalized form is empty: `"!!!"` normalizes to `""`, an entry named
`"???"` also normalizes to `""` — so some entry's normalized name equals
the normalized raw name — yet `findMatch` returns no match (the
empty-input short-circuit fires before Stage 1). -/
theorem exact_match_skipped_on_empty_normalization :
    normalizeName (some "???") = normalizeName (some "!!!") ∧
    findMatch (some "!!!") [⟨⟨some "???", 0⟩, mmPack⟩] = none := by
  constructor
  · decide
  · decide

/-- **C3, amended.** For every rawName whose normalized form is
non-empty, if some index entry's normalized name equals the normalized
rawName, then `findMatch` returns a match selected from the Stage 1
exact-match candidate set (an exact match is never skipped in favor of
a later stage). -/
theorem exact_match_never_skipped (raw : Option String) (idx : List CandidateMatch)
    (h0 : normalizeName raw ≠ "")
    (h1 : ∃ item ∈ idx, normalizeName item.entry.name = normalizeName raw) :
    ∃ m, findMatch raw idx = some m ∧ m ∈ idx ∧
      normalizeName m.entry.name = normalizeName raw := by
  obtain ⟨item, hmem, heq⟩ := h1
  have hf : item ∈ idx.filter (nameEqFilter (normalizeName raw)) :=
    List.mem_filter.mpr ⟨hmem, by simp [nameEqFilter, heq]⟩
  have hlen : 0 < (idx.filter (nameEqFilter (normalizeName raw))).length :=
    List.length_pos_of_mem hf
  rw [findMatch_of_stage1 h0 hlen]
  obtain ⟨m, hm, hmmem⟩ := selectBestMatch_mem (List.ne_nil_of_mem hf)
  have hsp := List.mem_filter.mp hmmem
  exact ⟨m, hm, hsp.1, by simpa [nameEqFilter] using hsp.2⟩

/-- Witness for the amended **C3**: `"Goblin"` against an index entry
spelt `"  GOBLIN!! "` (same normalized name) is found in Stage 1. -/
theorem exact_match_never_skipped_witness :
    ∃ m, findMatch (some "Goblin") [⟨⟨some "  GOBLIN!! ", 7⟩, mmPack⟩] = some m ∧
      m ∈ [⟨⟨some "  GOBLIN!! ", 7⟩, mmPack⟩] ∧
      normalizeName m.entry.name = normalizeName (some "Goblin") :=
  exact_match_never_skipped (some "Goblin") [⟨⟨some "  GOBLIN!! ", 7⟩, mmPack⟩]
    (by decide) ⟨⟨⟨some "  GOBLIN!! ", 7⟩, mmPack⟩, by decide, by decide⟩

/-- A Stage 2 transform result is looked up and succeeds: it differs
from the normalized input, is non-empty, and at least one index entry's
normalized name equals it exactly. -/
abbrev variantHits (s : String) (idx : List CandidateMatch) (v : String) : Prop :=
  v ≠ s ∧ 0 < v.length ∧ 0 < (idx.filter (nameEqFilter v)).length

theorem stage2Run_cons_of_not_hits {s : String} {idx : List CandidateMatch}
    {t : String → String} {ts : List (String → String)}
    (h : ¬ variantHits s idx (t s)) :
    stage2Run s idx (t :: ts) = stage2Run s idx ts := by
  by_cases hc : t s ≠ s ∧ 0 < (t s).length
  · refine stage2Run_cons_miss fun h3 => h ⟨hc.1, hc.2, h3⟩
  · exact stage2Run_cons_skip hc

theorem stage2Run_cons_of_hits {s : String} {idx : List CandidateMatch}
    {t : String → String} {ts : List (String → String)}
    (h : variantHits s idx (t s)) :
    stage2Run s idx (t :: ts) = selectBestMatch (idx.filter (nameEqFilter (t s))) :=
  stage2Run_cons_hit h.1 h.2.1 h.2.2

/-- **C4.** In Stage 2 of `findMatch`, the three variant transforms
(prefix-strip, suffix-strip, both in sequence) are tried in that fixed
order; a transform's result is looked up only if it differs from the
normalized input and is non-empty, the lookup is by exact equality of
normalized names, and the first transform yielding at least one
candidate causes tie resolution and immediate return without
evaluating the remaining transforms or Stage 3. -/
theorem variant_stage_order_short_circuit
    (raw : Option String) (idx : List CandidateMatch)
    (h0 : normalizeName raw ≠ "")
    (hs1 : ¬ 0 < (idx.filter (nameEqFilter (normalizeName raw))).length) :
    (variantHits (normalizeName raw) idx (variantA (normalizeName raw)) →
      findMatch raw idx =
        selectBestMatch (idx.filter (nameEqFilter (variantA (normalizeName raw))))) ∧
    (¬ variantHits (normalizeName raw) idx (variantA (normalizeName raw)) →
      variantHits (normalizeName raw) idx (variantB (normalizeName raw)) →
      findMatch raw idx =
        selectBestMatch (idx.filter (nameEqFilter (variantB (normalizeName raw))))) ∧
    (¬ variantHits (normalizeName raw) idx (variantA (normalizeName raw)) →
      ¬ variantHits (normalizeName raw) idx (variantB (normalizeName raw)) →
      variantHits (normalizeName raw) idx (variantC (normalizeName raw)) →
      findMatch raw idx =
        selectBestMatch (idx.filter (nameEqFilter (variantC (normalizeName raw))))) := by
  have hrun : ∀ m, stage2Run (normalizeName raw) idx variantTransforms = some m →
      findMatch raw idx = some m := fun m hm => findMatch_of_stage2 h0 hs1 hm
  refine ⟨?_, ?_, ?_⟩
  · intro hA
    obtain ⟨m, hm, -⟩ := selectBestMatch_mem (List.length_pos.mp hA.2.2)
    have h2 : stage2Run (normalizeName raw) idx variantTransforms = some m := by
      show stage2Run _ idx (variantA :: [variantB, variantC]) = some m
      rw [stage2Run_cons_of_hits hA]
      exact hm
    rw [hrun m h2, hm]
  · intro hA hB
    obtain ⟨m, hm, -⟩ := selectBestMatch_mem (List.length_pos.mp hB.2.2)
    have h2 : stage2Run (normalizeName raw) idx variantTransforms = some m := by
      show stage2Run _ idx (variantA :: variantB :: [variantC]) = some m
      rw [stage2Run_cons_of_not_hits hA, stage2Run_cons_of_hits hB]
      exact hm
    rw [hrun m h2, hm]
  · intro hA hB hC
    obtain ⟨m, hm, -⟩ := selectBestMatch_mem (List.length_pos.mp hC.2.2)
    have h2 : stage2Run (normalizeName raw) idx variantTransforms = some m := by
      show stage2Run _ idx (variantA :: variantB :: variantC :: []) = some m
      rw [stage2Run_cons_of_not_hits hA, stage2Run_cons_of_not_hits hB,
        stage2Run_cons_of_hits hC]
      exact hm
    rw [hrun m h2, hm]

/-- Witness for **C4**: `"Young Red Dragon"` against an index holding
only `"Red Dragon"` — Stage 1 finds nothing, the prefix-strip
transform hits, and the match is its tie-resolved candidate set. -/
theorem variant_stage_order_short_circuit_witness :
    variantHits (normalizeName (some "Young Red Dragon"))
        [⟨⟨some "Red Dragon", 3⟩, mmPack⟩]
        (variantA (normalizeName (some "Young Red Dragon"))) ∧
    findMatch (some "Young Red Dragon") [⟨⟨some "Red Dragon", 3⟩, mmPack⟩] =
      selectBestMatch ([⟨⟨some "Red Dragon", 3⟩, mmPack⟩].filter
        (nameEqFilter (variantA (normalizeName (some "Young Red Dragon"))))) :=
  have hits : variantHits (normalizeName (some "Young Red Dragon"))
      [⟨⟨some "Red Dragon", 3⟩, mmPack⟩]
      (variantA (normalizeName (some "Young Red Dragon"))) := by decide
  ⟨hits,
    (variant_stage_order_short_circuit (some "Young Red Dragon")
      [⟨⟨some "Red Dragon", 3⟩, mmPack⟩] (by decide) (by decide)).1 hits⟩

/-- **C6.** For every rawName whose normalized form has length strictly
less than 4, Stage 3 partial matching is never attempted, so if Stages
1 and 2 yield no candidates `findMatch` returns "no match" even when an
entry in the index contains the input as a substring. -/
theorem min_partial_length_gate (raw : Option String) (idx : List CandidateMatch)
    (hlen : (normalizeName raw).length < MIN_PARTIAL_LENGTH)
    (hs1 : idx.filter (nameEqFilter (normalizeName raw)) = [])
    (hs2 : stage2Run (normalizeName raw) idx variantTransforms = none) :
    findMatch raw idx = none := by
  by_cases h0 : normalizeName raw = ""
  · exact findMatch_of_empty h0
  · have h1 : ¬ 0 < (idx.filter (nameEqFilter (normalizeName raw))).length := by
      simp [hs1]
    rw [findMatch_of_stage3 h0 h1 hs2]
    have hno : ¬ MIN_PARTIAL_LENGTH ≤ (normalizeName raw).length := by omega
    rw [if_neg hno]

/-- Witness for **C6**: `"Rat"` (normalized length 3) against an index
whose only entry, `"Giant Pirate Captain"`, contains `rat` as a
substring — no match. -/
theorem min_partial_length_gate_witness :
    findMatch (some "Rat") [⟨⟨some "Giant Pirate Captain", 9⟩, mmPack⟩] = none :=
  min_partial_length_gate (some "Rat") [⟨⟨some "Giant Pirate Captain", 9⟩, mmPack⟩]
    (by decide) (by decide) (by decide)

/-- **C8.** For every combined index, calling `findMatch` with a null,
empty, or whitespace-only rawName (more generally, any rawName whose
normalized form is empty) returns "no match" without attempting any
matching stage and without raising an error. -/
theorem empty_input_is_no_match (raw : Option String) (idx : List CandidateMatch)
    (h : normalizeName raw = "") : findMatch raw idx = none :=
  findMatch_of_empty h

/-- Witness for **C8**: null, the empty string and a whitespace-only
string, each against a non-empty index. -/
theorem empty_input_is_no_match_witness :
    findMatch none [⟨⟨some "Goblin", 0⟩, mmPack⟩] = none ∧
    findMatch (some "") [⟨⟨some "Goblin", 0⟩, mmPack⟩] = none ∧
    findMatch (some "   ") [⟨⟨some "Goblin", 0⟩, mmPack⟩] = none :=
  ⟨empty_input_is_no_match none _ (by decide),
   empty_input_is_no_match (some "") _ (by decide),
   empty_input_is_no_match (some "   ") _ (by decide)⟩

theorem stage3Pred_min_length {s : String} {item : CandidateMatch}
    (h : stage3Pred s item = true) :
    MIN_PARTIAL_LENGTH ≤ (normalizeName item.entry.name).length := by
  by_cases hl : (normalizeName item.entry.name).length < MIN_PARTIAL_LENGTH
  · rw [stage3Pred, if_pos hl] at h
    cases h
  · omega

theorem ne_empty_of_length_pos {s : String} (h : 0 < s.length) : s ≠ "" := by
  intro heq
  rw [heq] at h
  cases h

/-- **C10.** For every combined index (even one containing entries
whose name is null or normalizes to the empty string), whenever
`findMatch` returns a match, that match is an element of the index and
its name does not normalize to the empty string: an empty-normalizing
name can never satisfy Stage 1 (the search is non-empty), Stage 2 (the
variant is non-empty) or Stage 3 (the minimum-length check).  The
function is total, so no input raises an error. -/
theorem returned_match_has_nonempty_name (raw : Option String)
    (idx : List CandidateMatch) (m : CandidateMatch)
    (h : findMatch raw idx = some m) :
    m ∈ idx ∧ normalizeName m.entry.name ≠ "" := by
  by_cases h0 : normalizeName raw = ""
  · rw [findMatch_of_empty h0] at h
    cases h
  by_cases h1 : 0 < (idx.filter (nameEqFilter (normalizeName raw))).length
  · rw [findMatch_of_stage1 h0 h1] at h
    obtain ⟨m', hm', hmem⟩ := selectBestMatch_mem (List.length_pos.mp h1)
    have hmm : m' = m := Option.some.inj (hm'.symm.trans h)
    subst hmm
    have hsp := List.mem_filter.mp hmem
    refine ⟨hsp.1, ?_⟩
    have : normalizeName m'.entry.name = normalizeName raw := by
      simpa [nameEqFilter] using hsp.2
    rw [this]
    exact h0
  rcases hs2 : stage2Run (normalizeName raw) idx variantTransforms with _ | m0
  · rw [findMatch_of_stage3 h0 h1 hs2] at h
    split at h
    · split at h
      · rename_i h3
        obtain ⟨m', hm', hmem⟩ := selectBestMatch_mem (List.length_pos.mp h3)
        have hmm : m' = m := Option.some.inj (hm'.symm.trans h)
        subst hmm
        have hsp := List.mem_filter.mp hmem
        refine ⟨hsp.1, ?_⟩
        have hlen := stage3Pred_min_length hsp.2
        have h4 : MIN_PARTIAL_LENGTH = 4 := rfl
        exact ne_empty_of_length_pos (by omega)
      · cases h
    · cases h
  · have hf := findMatch_of_stage2 h0 h1 hs2
    have hmm : m0 = m := Option.some.inj (hf.symm.trans h)
    subst hmm
    obtain ⟨t, -, -, hvlen, hmem⟩ := stage2Run_some hs2
    have hsp := List.mem_filter.mp hmem
    refine ⟨hsp.1, ?_⟩
    have : normalizeName m0.entry.name = t (normalizeName raw) := by
      simpa [nameEqFilter] using hsp.2
    rw [this]
    exact ne_empty_of_length_pos hvlen

/-- Witness for **C10**: an index containing a null-named entry and a
`"Goblin"` entry; the returned match is the `"Goblin"` entry and its
normalized name is non-empty. -/
theorem returned_match_has_nonempty_name_witness :
    ⟨⟨some "Goblin", 1⟩, mmPack⟩ ∈
        ([⟨⟨none, 5⟩, srdPack⟩, ⟨⟨some "Goblin", 1⟩, mmPack⟩] : List CandidateMatch) ∧
    normalizeName (⟨⟨some "Goblin", 1⟩, mmPack⟩ : CandidateMatch).entry.name ≠ "" :=
  returned_match_has_nonempty_name (some "Goblin")
    [⟨⟨none, 5⟩, srdPack⟩, ⟨⟨some "Goblin", 1⟩, mmPack⟩]
    ⟨⟨some "Goblin", 1⟩, mmPack⟩ (by decide)

/-- **C5.** In Stage 3 of `findMatch`, a candidate entry is selected if
and only if its normalized name has length at least 4 and, splitting
both names on whitespace into word lists, either some input word of
length at least 4 appears verbatim in the entry's word list or some
entry word of length at least 4 appears verbatim in the input's word
list; in particular a 3-character input word never matches as a
substring of a longer word (e.g. `"rat"` never matches `"pirate"`,
checked concretely in the second conjunct). -/
theorem partial_match_word_level :
    (∀ (s : String) (item : CandidateMatch),
      stage3Pred s item = true ↔
        (4 ≤ (normalizeName item.entry.name).length ∧
         ((∃ sw ∈ splitSpace s.data,
             sw ∈ splitSpace (normalizeName item.entry.name).data ∧ 4 ≤ sw.length) ∨
          (∃ ew ∈ splitSpace (normalizeName item.entry.name).data,
             ew ∈ splitSpace s.data ∧ 4 ≤ ew.length)))) ∧
    stage3Pred "giant rat" ⟨⟨some "Pirate", 0⟩, mmPack⟩ = false := by
  constructor
  · intro s item
    rw [stage3Pred]
    have h4 : MIN_PARTIAL_LENGTH = 4 := rfl
    by_cases hl : (normalizeName item.entry.name).length < MIN_PARTIAL_LENGTH
    · rw [if_pos hl]
      constructor
      · intro h
        cases h
      · rintro ⟨hlen, -⟩
        omega
    · rw [if_neg hl]
      have hlen : 4 ≤ (normalizeName item.entry.name).length := by omega
      simp only [Bool.or_eq_true, List.any_eq_true, Bool.and_eq_true, decide_eq_true_eq,
        List.contains, List.elem_eq_mem]
      constructor
      · rintro (⟨sw, hsw, hc, hlw⟩ | ⟨ew, hew, hc, hlw⟩)
        · exact ⟨hlen, Or.inl ⟨sw, hsw, hc, by omega⟩⟩
        · exact ⟨hlen, Or.inr ⟨ew, hew, hc, by omega⟩⟩
      · rintro ⟨-, (⟨sw, hsw, hc, hlw⟩ | ⟨ew, hew, hc, hlw⟩)⟩
        · exact Or.inl ⟨sw, hsw, hc, by omega⟩
        · exact Or.inr ⟨ew, hew, hc, by omega⟩
  · decide

/-! ## Idempotence analysis of the normalization -/

theorem charToNat_ofNat {n : Nat} (h : n < 55296) : (Char.ofNat n).toNat = n := by
  have hv : n.isValidChar := Or.inl h
  rw [Char.ofNat, dif_pos hv]
  simp [Char.ofNatAux, Char.toNat, UInt32.toNat]

theorem jsToLower_toNat (c : Char) :
    (jsToLower c).toNat =
      if 65 ≤ c.toNat ∧ c.toNat ≤ 90 then c.toNat + 32 else c.toNat := by
  rw [jsToLower]
  split
  · rename_i hc
    exact charToNat_ofNat (by omega)
  · rfl

/-- Lower-casing is idempotent: its result is never an upper-case
basic-latin letter. -/
theorem jsToLower_jsToLower (c : Char) : jsToLower (jsToLower c) = jsToLower c := by
  have h := jsToLower_toNat c
  rw [jsToLower]
  rw [if_neg]
  rw [h]
  split <;> omega

/-- The relation "a space character is never followed by another": the
shape `collapseWs` guarantees. -/
def noTwoSpaces (a b : Char) : Prop :=
  isSpaceChar a = true → isSpaceChar b = false

theorem mem_collapseWsAux {c : Char} :
    ∀ {l : List Char} {b : Bool}, c ∈ collapseWsAux b l →
      c = ' ' ∨ (c ∈ l ∧ isSpaceChar c = false) := by
  intro l
  induction l with
  | nil =>
    intro b h
    simp [collapseWsAux] at h
  | cons d rest ih =>
    intro b h
    by_cases hd : isSpaceChar d
    · rw [collapseWsAux, if_pos hd] at h
      by_cases hb : b
      · subst hb
        rcases ih h with h' | ⟨hmem, hsp⟩
        · exact Or.inl h'
        · exact Or.inr ⟨List.mem_cons_of_mem _ hmem, hsp⟩
      · simp only [if_neg hb] at h
        rcases List.mem_cons.mp h with rfl | h'
        · exact Or.inl rfl
        · rcases ih h' with h'' | ⟨hmem, hsp⟩
          · exact Or.inl h''
          · exact Or.inr ⟨List.mem_cons_of_mem _ hmem, hsp⟩
    · rw [collapseWsAux, if_neg hd] at h
      rcases List.mem_cons.mp h with rfl | h'
      · exact Or.inr ⟨List.mem_cons_self _ _, by simpa using hd⟩
      · rcases ih h' with h'' | ⟨hmem, hsp⟩
        · exact Or.inl h''
        · exact Or.inr ⟨List.mem_cons_of_mem _ hmem, hsp⟩

theorem chain_collapseWsAux :
    ∀ (l : List Char) (b : Bool),
      (collapseWsAux b l).Chain' noTwoSpaces ∧
      (b = true → ∀ c, (collapseWsAux b l).head? = some c → isSpaceChar c = false) := by
  intro l
  induction l with
  | nil =>
    intro b
    constructor
    · simp [collapseWsAux]
    · intro _ c hc
      simp [collapseWsAux] at hc
  | cons d rest ih =>
    intro b
    by_cases hd : isSpaceChar d
    · by_cases hb : b
      · subst hb
        rw [collapseWsAux, if_pos hd, if_pos rfl]
        exact ih true
      · have hb' : b = false := by
          cases b
          · rfl
          · exact absurd rfl hb
        subst hb'
        rw [collapseWsAux, if_pos hd]
        simp only [Bool.false_eq_true, if_false]
        constructor
        · rw [List.chain'_cons']
          refine ⟨?_, (ih true).1⟩
          intro y hy
          intro _
          exact (ih true).2 rfl y hy
        · intro h
          cases h
    · rw [collapseWsAux, if_neg hd]
      constructor
      · rw [List.chain'_cons']
        refine ⟨?_, (ih false).1⟩
        intro y _ hsp
        exact absurd hsp hd
      · intro _ c hc
        have hdc : d = c := by simpa using hc
        subst hdc
        simpa using hd

theorem collapseWsAux_eq_self :
    ∀ (l : List Char) (b : Bool)
      (hsp : ∀ c ∈ l, isSpaceChar c = true → c = ' ')
      (hch : l.Chain' noTwoSpaces)
      (hb : b = true → ∀ c, l.head? = some c → isSpaceChar c = false),
      collapseWsAux b l = l := by
  intro l
  induction l with
  | nil =>
    intro b _ _ _
    rfl
  | cons d rest ih =>
    intro b hsp hch hb
    by_cases hd : isSpaceChar d
    · have hb' : b = false := by
        cases b
        · rfl
        · exact absurd hd (by simpa using hb rfl d rfl)
      subst hb'
      rw [collapseWsAux, if_pos hd]
      simp only [Bool.false_eq_true, if_false]
      have hd' : d = ' ' := hsp d (List.mem_cons_self _ _) hd
      have hrest : collapseWsAux true rest = rest := by
        refine ih true (fun c hc => hsp c (List.mem_cons_of_mem _ hc)) hch.tail ?_
        intro _ c hc
        exact (List.chain'_cons'.mp hch).1 c hc hd
      rw [hrest, hd']
    · rw [collapseWsAux, if_neg hd]
      have hrest : collapseWsAux false rest = rest := by
        refine ih false (fun c hc => hsp c (List.mem_cons_of_mem _ hc)) hch.tail ?_
        intro h
        cases h
      rw [hrest]

theorem trimChars_isInfix (l : List Char) : trimChars l <:+: l := by
  have h2 : l.dropWhile isSpaceChar <:+ l := List.dropWhile_suffix isSpaceChar
  have h3 : (l.dropWhile isSpaceChar).reverse.dropWhile isSpaceChar <:+
      (l.dropWhile isSpaceChar).reverse := List.dropWhile_suffix isSpaceChar
  have h4 : ((l.dropWhile isSpaceChar).reverse.dropWhile isSpaceChar).reverse.reverse <:+
      (l.dropWhile isSpaceChar).reverse := by
    rw [List.reverse_reverse]
    exact h3
  have h1 : trimChars l <+: l.dropWhile isSpaceChar := List.reverse_suffix.mp h4
  exact h1.isInfix.trans h2.isInfix

/-- Every character of a normalized name is a word character or a
space, is fixed by lower-casing, and is `' '` if it is whitespace. -/
theorem mem_normChars {c : Char} {l : List Char} (h : c ∈ normChars l) :
    (isWordChar c || isSpaceChar c) = true ∧ jsToLower c = c ∧
      (isSpaceChar c = true → c = ' ') := by
  rcases mem_collapseWsAux h with rfl | ⟨hmem, hsp⟩
  · refine ⟨by decide, by decide, fun _ => rfl⟩
  · have hf := List.mem_filter.mp hmem
    have hlow : c ∈ (l.map jsToLower) :=
      ((trimChars_isInfix (l.map jsToLower)).sublist.subset) hf.1
    obtain ⟨d, -, hd⟩ := List.mem_map.mp hlow
    refine ⟨hf.2, ?_, fun hs => absurd hs (by simp [hsp])⟩
    rw [← hd]
    exact jsToLower_jsToLower d

theorem chain_normChars (l : List Char) : (normChars l).Chain' noTwoSpaces :=
  (chain_collapseWsAux _ false).1

theorem chain_dropWhile {R : Char → Char → Prop} (p : Char → Bool) :
    ∀ {l : List Char}, l.Chain' R → (l.dropWhile p).Chain' R := by
  intro l h
  induction l with
  | nil => simp
  | cons a rest ih =>
    rw [List.dropWhile_cons]
    split
    · exact ih h.tail
    · exact h

theorem chain_trimChars {R : Char → Char → Prop} (l : List Char) (h : l.Chain' R) :
    (trimChars l).Chain' R := by
  have h1 : (l.dropWhile isSpaceChar).Chain' R := chain_dropWhile isSpaceChar h
  have h2 : ((l.dropWhile isSpaceChar).reverse).Chain' (flip R) :=
    List.chain'_reverse.mpr h1
  have h3 : (((l.dropWhile isSpaceChar).reverse).dropWhile isSpaceChar).Chain' (flip R) :=
    chain_dropWhile isSpaceChar h2
  exact List.chain'_reverse.mpr h3

/-- Applying the full normalization pipeline to an already-normalized
character list only trims it: the second lower-casing, filtering and
whitespace-collapsing pass are all the identity there. -/
theorem normChars_normChars (l : List Char) :
    normChars (normChars l) = trimChars (normChars l) := by
  have hmem : ∀ c ∈ normChars l,
      (isWordChar c || isSpaceChar c) = true ∧ jsToLower c = c ∧
        (isSpaceChar c = true → c = ' ') := fun c hc => mem_normChars hc
  have hsub : ∀ c ∈ trimChars (normChars l), c ∈ normChars l :=
    fun c hc => ((trimChars_isInfix (normChars l)).sublist.subset) hc
  have hmap : (normChars l).map jsToLower = List.map id (normChars l) :=
    List.map_congr_left (fun c hc => (hmem c hc).2.1)
  show collapseWs (((normChars l).map jsToLower |> trimChars).filter _) = _
  rw [hmap, List.map_id]
  rw [List.filter_eq_self.mpr (fun c hc => (hmem c (hsub c hc)).1)]
  refine collapseWsAux_eq_self _ false ?_ ?_ ?_
  · intro c hc hs
    exact (hmem c (hsub c hc)).2.2 hs
  · exact chain_trimChars _ (chain_normChars l)
  · intro h
    cases h

/-- **C7, counterexample.** Normalization is not idempotent: for
`"a -"` the first pass removes the trailing `-` after trimming and
leaves `"a "` (with a trailing space the collapse step keeps), while a
second pass trims that space away, giving `"a"`. -/
theorem normalize_not_idempotent :
    normalizeName (some (normalizeName (some "a -"))) ≠ normalizeName (some "a -") := by
  decide

/-- **C7, amended.** For every string `s`, normalizing twice equals
trimming the once-normalized string:
`normalize (normalize s) = trim (normalize s)`.  In particular
normalization is idempotent exactly on the strings whose normalized
form carries no leading or trailing whitespace (a trailing or leading
space can survive one pass when removing punctuation exposes it). -/
theorem normalize_normalize_eq_trim_normalize (s : String) :
    normalizeName (some (normalizeName (some s))) =
      ⟨trimChars (normalizeName (some s)).data⟩ := by
  by_cases hs : s = ""
  · subst hs
    decide
  · simp only [normalizeName, if_neg hs]
    by_cases hx : (⟨normChars s.data⟩ : String) = ""
    · rw [if_pos hx]
      have hl : normChars s.data = [] := by
        have := congrArg String.data hx
        simpa using this
      rw [hl]
      decide
    · rw [if_neg hx]
      exact congrArg String.mk (normChars_normChars s.data)
